import Mathlib

/-!
Verification of the concurrency-toolkit specification of the
A-Tour-of-Go-Notes repository.

The repository's source (src/concurrency/concurrency.go, src/sync.Mutex)
consists of example functions exercising Go's built-in channels,
goroutines, select and sync.Mutex.  The channel / scheduler / select /
mutex semantics themselves are provided by the Go runtime and are not
part of the repository's source tree, so they are modelled here from the
specification's words; the example functions from the source are embedded
on top of that model.
-/

namespace GoNotes

/-- Modelled from the spec: a typed, capacity-bounded communication
object.  The Go runtime's channel implementation is not in the
repository; per the spec a channel has an element type, a capacity
(0 = unbuffered), an ordered sequence of buffered elements (FIFO,
length never exceeding capacity) and a monotonic closed flag. -/
structure Channel (α : Type) where
  capacity : Nat
  buffer : List α
  closed : Bool
  deriving Repr, DecidableEq

/-- `makeChannel<T>(capacity)` : a fresh open channel with empty buffer. -/
def makeChannel (α : Type) (capacity : Nat) : Channel α :=
  { capacity := capacity, buffer := [], closed := false }

/-- Outcome of a `send` in the single-channel model: `ok` delivers the
value into the buffer; `blocked` suspends the caller leaving the channel
unchanged and the value with the caller; `closedError` is the
`ClosedChannelError` of the spec, also leaving the channel unchanged. -/
inductive SendResult (α : Type) where
  | ok (ch : Channel α)
  | blocked (ch : Channel α)
  | closedError (ch : Channel α)
  deriving Repr, DecidableEq

/-- Modelled from the spec: `send(value)` appends to the buffer when
there is room, blocks when the buffer is full (or the channel is
unbuffered with no rendezvous partner), and fails with
`ClosedChannelError` when the channel is already closed. -/
def Channel.send (ch : Channel α) (v : α) : SendResult α :=
  if ch.closed then .closedError ch
  else if ch.buffer.length < ch.capacity then
    .ok { ch with buffer := ch.buffer ++ [v] }
  else .blocked ch

/-- Outcome of a `receive`: `ok v true` pops the oldest element, `ok zero
false` is the closed-and-empty sentinel, `blocked` suspends the caller. -/
inductive ReceiveResult (α : Type) where
  | ok (v : α) («open» : Bool) (ch : Channel α)
  | blocked (ch : Channel α)
  deriving Repr, DecidableEq

/-- Modelled from the spec: `receive()` pops the oldest buffered element
(FIFO) paired with open flag true; on an empty open channel it blocks;
on an empty closed channel it returns the zero value of the element type
paired with open flag false, immediately, leaving the channel unchanged. -/
def Channel.receive [Inhabited α] (ch : Channel α) : ReceiveResult α :=
  match ch.buffer with
  | v :: rest => .ok v true { ch with buffer := rest }
  | [] =>
    if ch.closed then .ok default false ch
    else .blocked ch

/-- Outcome of `close`: `DoubleCloseError` when already closed. -/
inductive CloseResult (α : Type) where
  | ok (ch : Channel α)
  | doubleCloseError (ch : Channel α)
  deriving Repr, DecidableEq

/-- Modelled from the spec: `close()` fails with `DoubleCloseError` if
already closed, otherwise marks the channel closed. -/
def Channel.close (ch : Channel α) : CloseResult α :=
  if ch.closed then .doubleCloseError ch
  else .ok { ch with closed := true }

/-- C1: For every channel, any send attempted after close returns
`ClosedChannelError`: it never succeeds (the channel is unchanged, the
value stays with the caller) and never blocks the sending task. -/
theorem send_after_close_is_closedError (ch : Channel α) (v : α)
    (h : ch.closed = true) :
    ch.send v = .closedError ch := by
  simp [Channel.send, h]

/-- Witness for C1 at a concrete closed channel. -/
theorem send_after_close_is_closedError_witness :
    ({ capacity := 1, buffer := [], closed := true } : Channel Int).closed = true ∧
    ({ capacity := 1, buffer := [], closed := true } : Channel Int).send 5 =
      .closedError { capacity := 1, buffer := [], closed := true } :=
  ⟨rfl, send_after_close_is_closedError
    { capacity := 1, buffer := [], closed := true } 5 rfl⟩

/-- C2: For every channel that is closed and whose buffer is empty,
`receive()` returns the zero value of the element type paired with open
flag false, immediately and without blocking, leaving the channel in the
same closed-and-empty state, so the same holds on every repeated receive
(the state is a terminal, idempotent sentinel). -/
theorem receive_closed_empty_sentinel [Inhabited α] (ch : Channel α)
    (hclosed : ch.closed = true) (hempty : ch.buffer = []) :
    ch.receive = .ok (default : α) false ch := by
  simp [Channel.receive, hclosed, hempty]

/-- Witness for C2 at a concrete closed, drained channel. -/
theorem receive_closed_empty_sentinel_witness :
    ({ capacity := 1, buffer := [], closed := true } : Channel Int).closed = true ∧
    ({ capacity := 1, buffer := [], closed := true } : Channel Int).buffer = [] ∧
    ({ capacity := 1, buffer := [], closed := true } : Channel Int).receive =
      .ok (0 : Int) false { capacity := 1, buffer := [], closed := true } :=
  ⟨rfl, rfl, receive_closed_empty_sentinel
    { capacity := 1, buffer := [], closed := true } rfl rfl⟩

/-- A single channel operation issued by a task, for reasoning about
sequences of operations on one channel. -/
inductive ChanOp (α : Type) where
  | send (v : α)
  | receive
  | close
  deriving Repr, DecidableEq

/-- State of a single-producer single-consumer trace: the channel
together with the values successfully sent into it and the data values
successfully received from it, each in order. -/
structure TraceState (α : Type) where
  ch : Channel α
  sent : List α
  received : List α
  deriving Repr, DecidableEq

/-- Execute one channel operation.  A blocked or failed send leaves the
channel and the value with the caller; a closed-sentinel receive yields
no data value; a failed close changes nothing. -/
def traceStep [Inhabited α] (st : TraceState α) (op : ChanOp α) : TraceState α :=
  match op with
  | .send v =>
    match st.ch.send v with
    | .ok ch => { st with ch := ch, sent := st.sent ++ [v] }
    | .blocked _ => st
    | .closedError _ => st
  | .receive =>
    match st.ch.receive with
    | .ok v true ch => { st with ch := ch, received := st.received ++ [v] }
    | .ok _ false _ => st
    | .blocked _ => st
  | .close =>
    match st.ch.close with
    | .ok ch => { st with ch := ch }
    | .doubleCloseError _ => st

/-- Run a sequence of channel operations from a fresh channel of the
given capacity. -/
def runOps [Inhabited α] (capacity : Nat) (ops : List (ChanOp α)) : TraceState α :=
  ops.foldl traceStep { ch := makeChannel α capacity, sent := [], received := [] }

/-- Embedded from src/concurrency/concurrency.go `bufferedChannelsExample`:
a capacity-10 channel, the values 0..9 sent in order, then 10 receives. -/
def bufferedChannelsExample : List (ChanOp Int) :=
  ((List.range 10).map fun i => ChanOp.send (Int.ofNat i)) ++
    List.replicate 10 ChanOp.receive

theorem traceStep_capacity [Inhabited α] (st : TraceState α) (op : ChanOp α) :
    (traceStep st op).ch.capacity = st.ch.capacity := by
  cases op with
  | send v =>
    by_cases hc : st.ch.closed = true
    · simp [traceStep, Channel.send, hc]
    · by_cases hl : st.ch.buffer.length < st.ch.capacity <;>
        simp [traceStep, Channel.send, hc, hl]
  | receive =>
    cases hb : st.ch.buffer with
    | nil =>
      by_cases hc : st.ch.closed = true <;>
        simp [traceStep, Channel.receive, hb, hc]
    | cons v rest => simp [traceStep, Channel.receive, hb]
  | close =>
    by_cases hc : st.ch.closed = true <;> simp [traceStep, Channel.close, hc]

theorem traceStep_buffer_le [Inhabited α] (st : TraceState α) (op : ChanOp α)
    (h : st.ch.buffer.length ≤ st.ch.capacity) :
    (traceStep st op).ch.buffer.length ≤ (traceStep st op).ch.capacity := by
  rw [traceStep_capacity]
  cases op with
  | send v =>
    by_cases hc : st.ch.closed = true
    · simpa [traceStep, Channel.send, hc] using h
    · by_cases hl : st.ch.buffer.length < st.ch.capacity
      · simp [traceStep, Channel.send, hc, hl]
        omega
      · simpa [traceStep, Channel.send, hc, hl] using h
  | receive =>
    cases hb : st.ch.buffer with
    | nil =>
      by_cases hc : st.ch.closed = true <;>
        simp [traceStep, Channel.receive, hb, hc]
    | cons v rest =>
      rw [hb] at h
      simp only [List.length_cons] at h
      simp [traceStep, Channel.receive, hb]
      omega
  | close =>
    by_cases hc : st.ch.closed = true <;>
      simpa [traceStep, Channel.close, hc] using h

theorem traceStep_fifo [Inhabited α] (st : TraceState α) (op : ChanOp α)
    (h : st.sent = st.received ++ st.ch.buffer) :
    (traceStep st op).sent = (traceStep st op).received ++ (traceStep st op).ch.buffer := by
  cases op with
  | send v =>
    by_cases hc : st.ch.closed = true
    · simpa [traceStep, Channel.send, hc] using h
    · by_cases hl : st.ch.buffer.length < st.ch.capacity
      · simp [traceStep, Channel.send, hc, hl, h]
      · simpa [traceStep, Channel.send, hc, hl] using h
  | receive =>
    cases hb : st.ch.buffer with
    | nil =>
      by_cases hc : st.ch.closed = true <;>
        simpa [traceStep, Channel.receive, hb, hc] using h
    | cons v rest =>
      rw [hb] at h
      simp [traceStep, Channel.receive, hb, h]
  | close =>
    by_cases hc : st.ch.closed = true <;>
      simpa [traceStep, Channel.close, hc] using h

theorem runOps_invariants [Inhabited α] (capacity : Nat) (ops : List (ChanOp α)) :
    (runOps capacity ops).ch.capacity = capacity ∧
    (runOps capacity ops).ch.buffer.length ≤ capacity ∧
    (runOps capacity ops).sent = (runOps capacity ops).received ++ (runOps capacity ops).ch.buffer := by
  unfold runOps
  generalize hinit : ({ ch := makeChannel α capacity, sent := [], received := [] } : TraceState α) = st
  have h0 : st.ch.capacity = capacity ∧ st.ch.buffer.length ≤ capacity ∧
      st.sent = st.received ++ st.ch.buffer := by
    subst hinit; simp [makeChannel]
  clear hinit
  induction ops generalizing st with
  | nil => simpa using h0
  | cons op rest ih =>
    simp only [List.foldl_cons]
    apply ih
    obtain ⟨hc, hb, hf⟩ := h0
    refine ⟨?_, ?_, traceStep_fifo st op hf⟩
    · rw [traceStep_capacity, hc]
    · have := traceStep_buffer_le st op (by rw [hc]; exact hb)
      rwa [traceStep_capacity, hc] at this

/-- C3: For a single producer and a single consumer on one channel, the
values received are exactly the values sent, in the same order (FIFO):
over every sequence of operations the sent sequence equals the received
sequence followed by what is still buffered, so whenever the buffer has
been drained, receive order equals send order exactly. -/
theorem fifo_receive_order_eq_send_order [Inhabited α] (capacity : Nat)
    (ops : List (ChanOp α))
    (hdrained : (runOps capacity ops).ch.buffer = []) :
    (runOps capacity ops).received = (runOps capacity ops).sent := by
  have h := (runOps_invariants capacity ops).2.2
  rw [hdrained] at h
  simp [h]

/-- Witness for C3: the buffered-channels example from the source (send
0..9 into a capacity-10 channel, then receive 10 values) drains the
buffer and receives exactly the sent values in order. -/
theorem fifo_receive_order_eq_send_order_witness :
    (runOps 10 bufferedChannelsExample).ch.buffer = [] ∧
    (runOps 10 bufferedChannelsExample).received =
      (runOps 10 bufferedChannelsExample).sent ∧
    (runOps 10 bufferedChannelsExample).sent =
      [0, 1, 2, 3, 4, 5, 6, 7, 8, 9] :=
  ⟨by decide, fifo_receive_order_eq_send_order 10 bufferedChannelsExample (by decide),
    by decide⟩

/-- C4: For every channel created with capacity N and every sequence of
send/receive/close operations, the number of buffered elements never
exceeds N; and a send on a full open channel does not add an element but
blocks the sender, leaving the channel unchanged. -/
theorem buffer_never_exceeds_capacity [Inhabited α] (capacity : Nat)
    (ops : List (ChanOp α)) (ch : Channel α) (v : α)
    (hfull : ch.capacity ≤ ch.buffer.length) (hopen : ch.closed = false) :
    (runOps capacity ops).ch.buffer.length ≤ capacity ∧
    ch.send v = .blocked ch := by
  refine ⟨(runOps_invariants capacity ops).2.1, ?_⟩
  simp [Channel.send, hopen]
  omega

/-- Witness for C4: the overfilled-buffer example from the source
(capacity 2, send 1, send 2, send 3): the third send blocks and the
buffer holds 2 ≤ 2 elements. -/
theorem buffer_never_exceeds_capacity_witness :
    (({ capacity := 2, buffer := [1, 2], closed := false } : Channel Int).capacity ≤
        ({ capacity := 2, buffer := [1, 2], closed := false } : Channel Int).buffer.length ∧
      ({ capacity := 2, buffer := [1, 2], closed := false } : Channel Int).closed = false) ∧
    (runOps 2 [ChanOp.send (1 : Int), ChanOp.send 2, ChanOp.send 3]).ch.buffer.length ≤ 2 ∧
    ({ capacity := 2, buffer := [1, 2], closed := false } : Channel Int).send 3 =
      .blocked { capacity := 2, buffer := [1, 2], closed := false } :=
  ⟨⟨by decide, rfl⟩,
    buffer_never_exceeds_capacity 2 [ChanOp.send (1 : Int), ChanOp.send 2, ChanOp.send 3]
      { capacity := 2, buffer := [1, 2], closed := false } 3 (by decide) rfl⟩

/-- Embedded from src/concurrency/concurrency.go: `const MAX_CH_BUFFER_CAP = 10`. -/
def MAX_CH_BUFFER_CAP : Int := 10

/-- Embedded from src/concurrency/concurrency.go `fillChannelToIndex`:
clamp `endAtIndex` to `min(endAtIndex, MAX_CH_BUFFER_CAP)`, send the
integers `0 .. endAtIndex-1` in increasing order (Go's
`for i := range endAtIndex` performs no iterations when
`endAtIndex ≤ 0`), and finally run the deferred `close(ch)`, which runs
even when nothing was sent. -/
def fillChannelToIndex (endAtIndex : Int) : List (ChanOp Int) :=
  ((List.range (min endAtIndex MAX_CH_BUFFER_CAP).toNat).map fun i =>
    ChanOp.send (Int.ofNat i)) ++ [ChanOp.close]

/-- Modelled from the spec: the range ("drain") iteration construct over
a channel, calling `receive()` repeatedly, collecting values while the
open flag is true and terminating cleanly the first time it is false.
`fuel` bounds the number of receive calls, making the recursion
structural; `none` means the loop would block or run out of fuel. -/
def Channel.drainFuel [Inhabited α] (fuel : Nat) (ch : Channel α) : Option (List α) :=
  match fuel with
  | 0 => none
  | fuel + 1 =>
    match ch.receive with
    | .ok v true ch2 => (Channel.drainFuel fuel ch2).map fun rest => v :: rest
    | .ok _ false _ => some []
    | .blocked _ => none

/-- Embedded from src/concurrency/concurrency.go
`loopThroughValsUntilChannelClosedEx`: a channel of capacity
`MAX_CH_BUFFER_CAP`, a goroutine running `fillChannelToIndex(ch, 6)`,
and a range loop collecting values until the channel is closed. -/
def loopThroughValsUntilChannelClosedEx : Option (List Int) :=
  Channel.drainFuel (MAX_CH_BUFFER_CAP.toNat + 1)
    (runOps MAX_CH_BUFFER_CAP.toNat (fillChannelToIndex 6)).ch

theorem runSends [Inhabited α] (vs : List α) (st : TraceState α)
    (hopen : st.ch.closed = false)
    (hroom : st.ch.buffer.length + vs.length ≤ st.ch.capacity) :
    (vs.map ChanOp.send).foldl traceStep st =
      { st with ch := { st.ch with buffer := st.ch.buffer ++ vs },
                sent := st.sent ++ vs } := by
  induction vs generalizing st with
  | nil => simp
  | cons v rest ih =>
    simp only [List.map_cons, List.foldl_cons]
    have hstep : traceStep st (ChanOp.send v) =
        { st with ch := { st.ch with buffer := st.ch.buffer ++ [v] },
                  sent := st.sent ++ [v] } := by
      have hlt : st.ch.buffer.length < st.ch.capacity := by
        simp only [List.length_cons] at hroom; omega
      simp [traceStep, Channel.send, hopen, hlt]
    have hih := ih
      { st with ch := { st.ch with buffer := st.ch.buffer ++ [v] },
                sent := st.sent ++ [v] }
      hopen
      (by
        simp only [List.length_cons] at hroom
        simp only [List.length_append, List.length_cons, List.length_nil]
        omega)
    rw [hstep, hih]
    simp

theorem drainFuel_closed [Inhabited α] (fuel : Nat) (ch : Channel α)
    (hclosed : ch.closed = true) (hfuel : ch.buffer.length < fuel) :
    Channel.drainFuel fuel ch = some ch.buffer := by
  induction fuel generalizing ch with
  | zero => omega
  | succ fuel ih =>
    cases hb : ch.buffer with
    | nil => simp [Channel.drainFuel, Channel.receive, hb, hclosed]
    | cons v rest =>
      rw [hb] at hfuel
      simp only [List.length_cons] at hfuel
      have hih := ih { ch with buffer := rest } hclosed (by simp; omega)
      simp [Channel.drainFuel, Channel.receive, hb, hih]

/-- C9: For every integer `endAtIndex`, `fillChannelToIndex` sends
exactly `max(0, min(endAtIndex, 10))` values — the integers
`0, 1, ..., min(endAtIndex, 10) - 1` in increasing order — into the
channel and then closes it (the deferred close runs even when
`endAtIndex ≤ 0` and nothing is sent); consequently, on a channel of
capacity 10 the range loop terminates after yielding exactly those
values, and in particular `loopThroughValsUntilChannelClosedEx` yields
`[0, 1, 2, 3, 4, 5]`. -/
theorem fillChannelToIndex_sends_then_closes (endAtIndex : Int) :
    (runOps MAX_CH_BUFFER_CAP.toNat (fillChannelToIndex endAtIndex)).sent =
      (List.range (min endAtIndex 10).toNat).map Int.ofNat ∧
    (((runOps MAX_CH_BUFFER_CAP.toNat (fillChannelToIndex endAtIndex)).sent.length : Int) =
      max 0 (min endAtIndex 10)) ∧
    (runOps MAX_CH_BUFFER_CAP.toNat (fillChannelToIndex endAtIndex)).ch.closed = true ∧
    Channel.drainFuel (MAX_CH_BUFFER_CAP.toNat + 1)
        (runOps MAX_CH_BUFFER_CAP.toNat (fillChannelToIndex endAtIndex)).ch =
      some ((List.range (min endAtIndex 10).toNat).map Int.ofNat) ∧
    loopThroughValsUntilChannelClosedEx = some [0, 1, 2, 3, 4, 5] := by
  have hM : MAX_CH_BUFFER_CAP = (10 : Int) := rfl
  have hMt : MAX_CH_BUFFER_CAP.toNat = 10 := rfl
  have hlen : (min endAtIndex 10).toNat ≤ 10 := by omega
  have hrun : runOps MAX_CH_BUFFER_CAP.toNat (fillChannelToIndex endAtIndex) =
      { ch := { capacity := 10,
                buffer := (List.range (min endAtIndex 10).toNat).map Int.ofNat,
                closed := true },
        sent := (List.range (min endAtIndex 10).toNat).map Int.ofNat,
        received := [] } := by
    unfold runOps fillChannelToIndex
    rw [hMt, hM]
    rw [show ((List.range (min endAtIndex 10).toNat).map fun i =>
        ChanOp.send (Int.ofNat i)) =
        ((List.range (min endAtIndex 10).toNat).map Int.ofNat).map
          ChanOp.send from by simp]
    rw [List.foldl_append]
    rw [runSends ((List.range (min endAtIndex 10).toNat).map Int.ofNat)
      { ch := makeChannel Int 10, sent := [], received := [] }
      rfl (by simp [makeChannel])]
    simp [traceStep, Channel.close, makeChannel]
  refine ⟨?_, ?_, ?_, ?_, ?_⟩
  · rw [hrun]
  · rw [hrun]
    simp only [TraceState.sent, List.length_map, List.length_range, Int.ofNat_toNat]
    omega
  · rw [hrun]
  · rw [hrun]
    exact drainFuel_closed _ _ rfl (by simp; omega)
  · decide

/-- A candidate operation of a `select` statement: a send of a value on
a channel, or a receive from a channel. -/
inductive SelectBranch (α : Type) where
  | send (ch : Channel α) (v : α)
  | receive (ch : Channel α)
  deriving Repr, DecidableEq

/-- Modelled from the spec: immediate readiness of a select branch —
buffer has room for a send; buffer non-empty or channel closed for a
receive. -/
def branchReady : SelectBranch α → Bool
  | .send ch _ => ch.buffer.length < ch.capacity
  | .receive ch => !ch.buffer.isEmpty || ch.closed

/-- Indices (starting at `k`) of the ready branches, in syntactic order. -/
def readyIndicesFrom (k : Nat) : List (SelectBranch α) → List Nat
  | [] => []
  | b :: rest =>
    if branchReady b then k :: readyIndicesFrom (k + 1) rest
    else readyIndicesFrom (k + 1) rest

/-- Indices of the ready branches of a select invocation. -/
def readyIndices (branches : List (SelectBranch α)) : List Nat :=
  readyIndicesFrom 0 branches

/-- Modelled from the spec: `select` evaluates all branches for
readiness and commits to one ready branch, choosing at random among the
ready set when several are ready; the random draw is modelled by the
`choice` parameter taken modulo the size of the ready set.  `none` means
no branch is ready (the caller blocks, or runs the default branch when
one is present). -/
def select (branches : List (SelectBranch α)) (choice : Nat) : Option Nat :=
  let r := readyIndices branches
  r.get? (choice % r.length)

theorem readyIndicesFrom_nil_of_none_ready (bs : List (SelectBranch α)) :
    ∀ (k : Nat), (∀ j (hj : j < bs.length), branchReady (bs.get ⟨j, hj⟩) = false) →
      readyIndicesFrom k bs = [] := by
  induction bs with
  | nil => intro k _; rfl
  | cons b rest ih =>
    intro k h
    have hb : branchReady b = false := h 0 (by simp)
    simp only [readyIndicesFrom, hb, Bool.false_eq_true, if_false]
    exact ih (k + 1) fun j hj => h (j + 1) (by simpa using hj)

theorem readyIndicesFrom_single (bs : List (SelectBranch α)) :
    ∀ (k i : Nat) (hi : i < bs.length),
      branchReady (bs.get ⟨i, hi⟩) = true →
      (∀ j (hj : j < bs.length), j ≠ i → branchReady (bs.get ⟨j, hj⟩) = false) →
      readyIndicesFrom k bs = [k + i] := by
  induction bs with
  | nil => intro k i hi; simp at hi
  | cons b rest ih =>
    intro k i hi hready hothers
    cases i with
    | zero =>
      have hb : branchReady b = true := hready
      simp only [readyIndicesFrom, hb, if_true]
      rw [readyIndicesFrom_nil_of_none_ready rest (k + 1)
        fun j hj => hothers (j + 1) (by simpa using hj) (by simp)]
      simp
    | succ i =>
      have hb : branchReady b = false := hothers 0 (by simp) (by simp)
      simp only [readyIndicesFrom, hb, Bool.false_eq_true, if_false]
      rw [ih (k + 1) i (by simpa using hi) hready
        fun j hj hne => hothers (j + 1) (by simpa using hj) (by simpa using hne)]
      congr 1
      omega

/-- C6: For every select invocation in which exactly one branch is ready
(buffer has room for a send; buffer non-empty or channel closed for a
receive), `select` commits to that ready branch whatever the random
draw, regardless of the syntactic order of the branches. -/
theorem select_commits_to_unique_ready_branch (branches : List (SelectBranch α))
    (i : Nat) (hi : i < branches.length)
    (hready : branchReady (branches.get ⟨i, hi⟩) = true)
    (hothers : ∀ j (hj : j < branches.length), j ≠ i →
      branchReady (branches.get ⟨j, hj⟩) = false)
    (choice : Nat) :
    select branches choice = some i := by
  have hr : readyIndices branches = [i] := by
    have := readyIndicesFrom_single branches 0 i hi hready hothers
    simpa [readyIndices] using this
  simp [select, hr, Nat.mod_one]

/-- Witness for C6, after the source's `fibonacci` select: the send
branch on a full unbuffered channel is not ready, the receive branch on
a closed channel is ready, so every random draw commits to branch 1 even
though it is listed second. -/
theorem select_commits_to_unique_ready_branch_witness :
    (1 < ([SelectBranch.send (makeChannel Int 0) 0,
           SelectBranch.receive { capacity := 0, buffer := [], closed := true }] :
        List (SelectBranch Int)).length) ∧
    select ([SelectBranch.send (makeChannel Int 0) 0,
             SelectBranch.receive { capacity := 0, buffer := [], closed := true }] :
        List (SelectBranch Int)) 7 = some 1 :=
  ⟨by decide,
    select_commits_to_unique_ready_branch
      [SelectBranch.send (makeChannel Int 0) 0,
       SelectBranch.receive { capacity := 0, buffer := [], closed := true }]
      1 (by decide) (by decide)
      (by decide)
      7⟩

/-- An operation of a task's body, naming a channel by its index in the
scheduler's channel table. -/
inductive TaskOp where
  | send (chIdx : Nat) (v : Int)
  | receive (chIdx : Nat)
  | close (chIdx : Nat)
  deriving Repr, DecidableEq

/-- Modelled from the spec: the Scheduler's state — a task table (each
task its remaining body; an empty body is a completed task) and the
channels the tasks communicate over. -/
structure SchedState where
  tasks : List (List TaskOp)
  chans : List (Channel Int)
  deriving Repr, DecidableEq

/-- Index of the first task whose next operation is a receive on the
given channel (a blocked receiver available for rendezvous). -/
def findHeadReceive (tasks : List (List TaskOp)) (chIdx : Nat) : Option Nat :=
  tasks.findIdx? fun p =>
    match p with
    | TaskOp.receive c :: _ => c == chIdx
    | _ => false

/-- Index of the first task whose next operation is a send on the given
channel (a blocked sender available for rendezvous). -/
def findHeadSend (tasks : List (List TaskOp)) (chIdx : Nat) : Option Nat :=
  tasks.findIdx? fun p =>
    match p with
    | TaskOp.send c _ :: _ => c == chIdx
    | _ => false

/-- Modelled from the spec: whether a task's next operation can proceed
without blocking.  A send proceeds when the channel is closed (a fatal
error, not a block), when the buffer has room, or — for an unbuffered
channel — when some task is waiting to receive on it; a receive proceeds
when the buffer is non-empty, the channel is closed, or — unbuffered —
some task is waiting to send on it; a close always proceeds. -/
def canProceed (st : SchedState) : TaskOp → Bool
  | .send chIdx _ =>
    match st.chans.get? chIdx with
    | some ch =>
      ch.closed || decide (ch.buffer.length < ch.capacity) ||
        (decide (ch.capacity = 0) && (findHeadReceive st.tasks chIdx).isSome)
    | none => true
  | .receive chIdx =>
    match st.chans.get? chIdx with
    | some ch =>
      !ch.buffer.isEmpty || ch.closed ||
        (decide (ch.capacity = 0) && (findHeadSend st.tasks chIdx).isSome)
    | none => true
  | .close _ => true

/-- Whether a task is runnable in the given state: not yet completed and
its next operation can proceed. -/
def taskRunnable (st : SchedState) : List TaskOp → Bool
  | [] => false
  | op :: _ => canProceed st op

/-- Drop the head operation of task `i`. -/
def dropHead (tasks : List (List TaskOp)) (i : Nat) : List (List TaskOp) :=
  match tasks.get? i with
  | some (_ :: rest) => tasks.set i rest
  | _ => tasks

/-- Modelled from the spec: execute the next operation of task `tIdx`
(assumed able to proceed).  Fatal errors (`ClosedChannelError` on send,
`DoubleCloseError` on close) terminate the offending task; an unbuffered
rendezvous completes both the sender's and the receiver's operation. -/
def execTask (st : SchedState) (tIdx : Nat) : SchedState :=
  match st.tasks.get? tIdx with
  | none => st
  | some [] => st
  | some (op :: rest) =>
    match op with
    | .close chIdx =>
      match st.chans.get? chIdx with
      | none => { st with tasks := st.tasks.set tIdx rest }
      | some ch =>
        match ch.close with
        | .ok ch2 =>
          { st with tasks := st.tasks.set tIdx rest,
                    chans := st.chans.set chIdx ch2 }
        | .doubleCloseError _ => { st with tasks := st.tasks.set tIdx [] }
    | .send chIdx v =>
      match st.chans.get? chIdx with
      | none => { st with tasks := st.tasks.set tIdx rest }
      | some ch =>
        if ch.closed then { st with tasks := st.tasks.set tIdx [] }
        else if ch.buffer.length < ch.capacity then
          { st with tasks := st.tasks.set tIdx rest,
                    chans := st.chans.set chIdx { ch with buffer := ch.buffer ++ [v] } }
        else
          match findHeadReceive st.tasks chIdx with
          | some rIdx => { st with tasks := dropHead (st.tasks.set tIdx rest) rIdx }
          | none => st
    | .receive chIdx =>
      match st.chans.get? chIdx with
      | none => { st with tasks := st.tasks.set tIdx rest }
      | some ch =>
        match ch.buffer with
        | _ :: buf2 =>
          { st with tasks := st.tasks.set tIdx rest,
                    chans := st.chans.set chIdx { ch with buffer := buf2 } }
        | [] =>
          if ch.closed then { st with tasks := st.tasks.set tIdx rest }
          else
            match findHeadSend st.tasks chIdx with
            | some sIdx => { st with tasks := dropHead (st.tasks.set tIdx rest) sIdx }
            | none => st

/-- Outcome of a scheduler run: all tasks completed, a detected global
deadlock (every remaining task blocked, none runnable), or fuel
exhaustion. -/
inductive RunResult where
  | done (st : SchedState)
  | deadlockError (st : SchedState)
  | outOfFuel (st : SchedState)
  deriving Repr, DecidableEq

/-- Modelled from the spec: the Scheduler's event loop.  Completed tasks
are removed; if tasks remain and none is runnable, the run stops with a
fatal `DeadlockError` rather than hanging; otherwise the first runnable
task executes one operation and the loop continues. -/
def schedRun (fuel : Nat) (st : SchedState) : RunResult :=
  match fuel with
  | 0 => .outOfFuel st
  | fuel + 1 =>
    let live := st.tasks.filter fun p => !p.isEmpty
    let st2 : SchedState := { st with tasks := live }
    if live.isEmpty then .done st2
    else
      match live.findIdx? (taskRunnable st2) with
      | none => .deadlockError st2
      | some t => schedRun fuel (execTask st2 t)

/-- C5: If execution reaches a state where every remaining task is
blocked (its next operation cannot proceed) and none is runnable, the
scheduler detects this and reports a fatal `DeadlockError` instead of
hanging silently. -/
theorem all_blocked_reports_deadlockError (st : SchedState) (fuel : Nat)
    (hfuel : 0 < fuel) (htasks : st.tasks ≠ [])
    (hlive : ∀ p ∈ st.tasks, p ≠ [])
    (hblocked : ∀ p ∈ st.tasks, taskRunnable st p = false) :
    schedRun fuel st = .deadlockError st := by
  cases fuel with
  | zero => omega
  | succ fuel =>
    have hfilter : (st.tasks.filter fun p => !p.isEmpty) = st.tasks := by
      rw [List.filter_eq_self]
      intro p hp
      simpa using hlive p hp
    have hst2 : ({ st with tasks := st.tasks.filter fun p => !p.isEmpty } : SchedState) = st := by
      rw [hfilter]
    simp only [schedRun, hfilter, hst2]
    rw [if_neg (by simpa [List.isEmpty_iff] using htasks)]
    rw [(List.findIdx?_eq_none_iff).2 fun p hp => by simpa using hblocked p hp]

/-- Witness for C5: the source's `deadlockExampleUnbufferedChNoReciever`
— a single task that sends on an unbuffered channel with no spawned
receiver — is reported as a deadlock. -/
theorem all_blocked_reports_deadlockError_witness :
    (0 < 5 ∧
      ({ tasks := [[TaskOp.send 0 1, TaskOp.receive 0]],
         chans := [makeChannel Int 0] } : SchedState).tasks ≠ []) ∧
    schedRun 5
        { tasks := [[TaskOp.send 0 1, TaskOp.receive 0]],
          chans := [makeChannel Int 0] } =
      .deadlockError
        { tasks := [[TaskOp.send 0 1, TaskOp.receive 0]],
          chans := [makeChannel Int 0] } :=
  ⟨⟨by decide, by decide⟩,
    all_blocked_reports_deadlockError
      { tasks := [[TaskOp.send 0 1, TaskOp.receive 0]],
        chans := [makeChannel Int 0] }
      5 (by decide) (by decide)
      (by decide)
      (by decide)⟩

/-- Modelled from the spec: a mutual-exclusion lock — an owning-task
identity (none when unowned) and the queue of tasks blocked waiting to
acquire it.  The sync.Mutex implementation used by src/sync.Mutex is the
Go standard library's, not in the repository. -/
structure Mutex where
  owner : Option Nat
  waiters : List Nat
  deriving Repr, DecidableEq

/-- A fresh, unowned mutex. -/
def makeMutex : Mutex := { owner := none, waiters := [] }

/-- Outcome of `lock()`: either acquired, or the caller is parked on the
waiter queue until release. -/
inductive LockResult where
  | acquired (m : Mutex)
  | blocked (m : Mutex)
  deriving Repr, DecidableEq

/-- Modelled from the spec: `lock()` marks the mutex owned by the caller
when it is unowned, and otherwise blocks the caller, parking it on the
waiter queue. -/
def Mutex.lock (m : Mutex) (t : Nat) : LockResult :=
  match m.owner with
  | none => .acquired { m with owner := some t }
  | some _ => .blocked { m with waiters := m.waiters ++ [t] }

/-- Outcome of `unlock()`: success, or the `NotOwnerError` of the spec
(the mutex is left unchanged). -/
inductive UnlockResult where
  | ok (m : Mutex)
  | notOwnerError (m : Mutex)
  deriving Repr, DecidableEq

/-- Modelled from the spec: `unlock()` fails with `NotOwnerError` when
the caller does not currently own the lock; otherwise it releases
ownership and wakes one blocked waiter when any exists (the woken waiter
acquires the lock). -/
def Mutex.unlock (m : Mutex) (t : Nat) : UnlockResult :=
  if m.owner = some t then
    match m.waiters with
    | [] => .ok { owner := none, waiters := [] }
    | w :: rest => .ok { owner := some w, waiters := rest }
  else .notOwnerError m

/-- C8: `unlock()` fails with `NotOwnerError` whenever the calling task
does not currently own the lock (leaving the mutex unchanged); called by
the owner it releases ownership — the mutex becomes unowned when no task
waits, and otherwise exactly one blocked waiter (the head of the queue)
is woken and takes ownership. -/
theorem unlock_notOwner_else_release (m : Mutex) (t : Nat) :
    (m.owner ≠ some t → m.unlock t = .notOwnerError m) ∧
    (m.owner = some t → m.waiters = [] →
      m.unlock t = .ok { owner := none, waiters := [] }) ∧
    (∀ w rest, m.owner = some t → m.waiters = w :: rest →
      m.unlock t = .ok { owner := some w, waiters := rest }) := by
  refine ⟨fun h => ?_, fun h hw => ?_, fun w rest h hw => ?_⟩
  · simp [Mutex.unlock, h]
  · simp [Mutex.unlock, h, hw]
  · simp [Mutex.unlock, h, hw]

/-- Witness for C8: a non-owner unlock fails; the owner's unlock wakes
the head waiter. -/
theorem unlock_notOwner_else_release_witness :
    ({ owner := some 1, waiters := [] } : Mutex).unlock 2 =
      .notOwnerError { owner := some 1, waiters := [] } ∧
    ({ owner := some 1, waiters := [2, 3] } : Mutex).unlock 1 =
      .ok { owner := some 2, waiters := [3] } :=
  ⟨(unlock_notOwner_else_release { owner := some 1, waiters := [] } 2).1 (by decide),
    (unlock_notOwner_else_release { owner := some 1, waiters := [2, 3] } 1).2.2
      2 [3] rfl rfl⟩

/-- Embedded from src/sync.Mutex `Inc`: increment the counter value. -/
def Inc (counterValue : Nat) : Nat := counterValue + 1

/-- Progress of one task through the body of src/sync.Mutex `SafeInc`:
before `mu.Lock()`; holding the lock before reading `v[key]`; having
read the value (the snapshot it will increment); having written back;
and after `mu.Unlock()`. -/
inductive IncPhase where
  | start
  | locked
  | readDone (s : Nat)
  | written
  | finished
  deriving Repr, DecidableEq

/-- Phases inside the mutex-protected critical section of `SafeInc`. -/
def isCrit : IncPhase → Bool
  | .locked => true
  | .readDone _ => true
  | .written => true
  | _ => false

/-- Phases whose write-back of the incremented value has happened. -/
def isWritten : IncPhase → Bool
  | .written => true
  | .finished => true
  | _ => false

/-- Number of tasks whose increment has been written back. -/
def countWrites (phases : List IncPhase) : Nat := phases.countP isWritten

/-- State of `safeIncrementMutuxExample` (src/sync.Mutex): the mutex
owner, the counter value at `COUNTER_KEY`, and each spawned task's
progress through `SafeInc`. -/
structure SafeRun where
  owner : Option Nat
  value : Nat
  phases : List IncPhase
  deriving Repr, DecidableEq

/-- One scheduling step of task `t` in the safe run: each task performs
`mu.Lock()`, reads `v[key]`, writes back `Inc` of the read snapshot, and
performs `mu.Unlock()`; a task whose lock attempt finds the mutex owned,
or that is not the owner, makes no progress (it is blocked). -/
def safeStep (st : SafeRun) (t : Nat) : SafeRun :=
  match st.phases[t]? with
  | none => st
  | some ph =>
    match ph with
    | .start =>
      match st.owner with
      | none => { st with owner := some t, phases := st.phases.set t .locked }
      | some _ => st
    | .locked =>
      if st.owner = some t then
        { st with phases := st.phases.set t (.readDone st.value) }
      else st
    | .readDone s =>
      if st.owner = some t then
        { st with value := Inc s, phases := st.phases.set t .written }
      else st
    | .written =>
      if st.owner = some t then
        { st with owner := none, phases := st.phases.set t .finished }
      else st
    | .finished => st

/-- The initial safe-run state: counter 0, mutex unowned, `n` tasks
about to run `SafeInc`. -/
def initSafe (n : Nat) : SafeRun :=
  { owner := none, value := 0, phases := List.replicate n IncPhase.start }

/-- Run the `n` concurrent `SafeInc` tasks under an arbitrary schedule
(the list of task indices picked to step, in order). -/
def runSafe (n : Nat) (sched : List Nat) : SafeRun :=
  sched.foldl safeStep (initSafe n)

/-- An event of the unsafe (unlocked) increment run: some task reads the
shared value, or the task that made the `k`-th outstanding read writes
back its incremented snapshot. -/
inductive UnsafeEvent where
  | read
  | write (k : Nat)
  deriving Repr, DecidableEq

/-- State of `unsafeIncrementExample` (src/sync.Mutex): the shared
value, the snapshots read but not yet written back, the number of tasks
yet to read, and the number of write-backs performed. -/
structure UnsafeRun where
  value : Nat
  pending : List Nat
  remaining : Nat
  writes : Nat
  deriving Repr, DecidableEq

/-- One event of the unsafe run: without a lock, a task's `Inc` is a
read of the shared value followed, arbitrarily later, by a write-back of
the incremented snapshot — so concurrent increments can be lost. -/
def unsafeStep (st : UnsafeRun) (e : UnsafeEvent) : UnsafeRun :=
  match e with
  | .read =>
    match st.remaining with
    | 0 => st
    | r + 1 => { st with remaining := r, pending := st.pending ++ [st.value] }
  | .write k =>
    match st.pending[k]? with
    | none => st
    | some s =>
      { st with pending := st.pending.eraseIdx k, value := Inc s,
                writes := st.writes + 1 }

/-- The initial unsafe-run state for `n` concurrent unlocked increments. -/
def initUnsafe (n : Nat) : UnsafeRun :=
  { value := 0, pending := [], remaining := n, writes := 0 }

/-- Run the `n` unlocked increments under an arbitrary interleaving of
their reads and writes. -/
def runUnsafe (n : Nat) (events : List UnsafeEvent) : UnsafeRun :=
  events.foldl unsafeStep (initUnsafe n)

/-- The sequential schedule: each of the `n` tasks runs its four safe
steps to completion before the next starts. -/
def seqSched (n : Nat) : List Nat :=
  ((List.range n).map fun i => [i, i, i, i]).flatten

theorem countP_set_old (l : List α) (i : Nat) (x old : α) (p : α → Bool)
    (h : l[i]? = some old) :
    (l.set i x).countP p + (if p old then 1 else 0) =
      l.countP p + (if p x then 1 else 0) := by
  induction l generalizing i with
  | nil => simp at h
  | cons a as ih =>
    cases i with
    | zero =>
      simp only [List.getElem?_cons_zero, Option.some.injEq] at h
      subst h
      simp only [List.set_cons_zero, List.countP_cons]
      omega
    | succ i =>
      simp only [List.getElem?_cons_succ] at h
      simp only [List.set_cons_succ, List.countP_cons]
      have := ih i h
      omega

/-- The invariant of the safe run: the counter equals the number of
write-backs performed; every task inside the critical section is the
mutex owner (so there is at most one); and the snapshot held by a task
that has read but not yet written is the current counter value. -/
def SafeInv (st : SafeRun) : Prop :=
  st.value = countWrites st.phases ∧
  (∀ (i : Nat) (ph : IncPhase), st.phases[i]? = some ph → isCrit ph = true →
    st.owner = some i) ∧
  (∀ (i s : Nat), st.phases[i]? = some (IncPhase.readDone s) → s = st.value)

theorem safeStep_inv (st : SafeRun) (t : Nat) (h : SafeInv st) :
    SafeInv (safeStep st t) := by
  obtain ⟨h1, h2, h3⟩ := h
  rcases hp : st.phases[t]? with _ | ph
  · simpa [safeStep, hp] using ⟨h1, h2, h3⟩
  have ht : t < st.phases.length := (List.getElem?_eq_some_iff.1 hp).1
  cases ph with
  | start =>
    rcases how : st.owner with _ | u
    · simp only [safeStep, hp, how]
      refine ⟨?_, ?_, ?_⟩
      · have hc := countP_set_old st.phases t IncPhase.locked IncPhase.start isWritten hp
        simp [isWritten] at hc
        simp only [countWrites] at h1 ⊢
        omega
      · intro i ph2 hi hcrit
        by_cases hit : t = i
        · subst hit; rfl
        · rw [List.getElem?_set_ne hit] at hi
          have := h2 i ph2 hi hcrit
          rw [how] at this
          simp at this
      · intro i s hi
        by_cases hit : t = i
        · subst hit
          rw [List.getElem?_set_self ht] at hi
          simp at hi
        · rw [List.getElem?_set_ne hit] at hi
          have := h2 i (IncPhase.readDone s) hi rfl
          rw [how] at this
          simp at this
    · simpa [safeStep, hp, how] using ⟨h1, h2, h3⟩
  | locked =>
    by_cases how : st.owner = some t
    · simp only [safeStep, hp, how, if_pos]
      refine ⟨?_, ?_, ?_⟩
      · have hc := countP_set_old st.phases t (IncPhase.readDone st.value)
          IncPhase.locked isWritten hp
        simp [isWritten] at hc
        simp only [countWrites] at h1 ⊢
        omega
      · intro i ph2 hi hcrit
        by_cases hit : t = i
        · subst hit; rfl
        · rw [List.getElem?_set_ne hit] at hi
          have hoi := h2 i ph2 hi hcrit
          rw [how] at hoi
          exact hoi
      · intro i s hi
        by_cases hit : t = i
        · subst hit
          rw [List.getElem?_set_self ht] at hi
          simp only [Option.some.injEq, IncPhase.readDone.injEq] at hi
          simp [hi]
        · rw [List.getElem?_set_ne hit] at hi
          exact h3 i s hi
    · simpa [safeStep, hp, how] using ⟨h1, h2, h3⟩
  | readDone s =>
    by_cases how : st.owner = some t
    · simp only [safeStep, hp, how, if_pos]
      have hs : s = st.value := h3 t s hp
      refine ⟨?_, ?_, ?_⟩
      · have hc := countP_set_old st.phases t IncPhase.written
          (IncPhase.readDone s) isWritten hp
        simp [isWritten] at hc
        simp only [countWrites] at h1 ⊢
        simp only [Inc]
        omega
      · intro i ph2 hi hcrit
        by_cases hit : t = i
        · subst hit; rfl
        · rw [List.getElem?_set_ne hit] at hi
          have hoi := h2 i ph2 hi hcrit
          rw [how] at hoi
          exact hoi
      · intro i s2 hi
        by_cases hit : t = i
        · subst hit
          rw [List.getElem?_set_self ht] at hi
          simp at hi
        · rw [List.getElem?_set_ne hit] at hi
          have := h2 i (IncPhase.readDone s2) hi rfl
          rw [how] at this
          simp only [Option.some.injEq] at this
          exact absurd this hit
    · simpa [safeStep, hp, how] using ⟨h1, h2, h3⟩
  | written =>
    by_cases how : st.owner = some t
    · simp only [safeStep, hp, how, if_pos]
      refine ⟨?_, ?_, ?_⟩
      · have hc := countP_set_old st.phases t IncPhase.finished
          IncPhase.written isWritten hp
        simp [isWritten] at hc
        simp only [countWrites] at h1 ⊢
        omega
      · intro i ph2 hi hcrit
        by_cases hit : t = i
        · subst hit
          rw [List.getElem?_set_self ht] at hi
          simp only [Option.some.injEq] at hi
          rw [← hi] at hcrit
          simp [isCrit] at hcrit
        · rw [List.getElem?_set_ne hit] at hi
          have := h2 i ph2 hi hcrit
          rw [how] at this
          simp only [Option.some.injEq] at this
          exact absurd this hit
      · intro i s2 hi
        by_cases hit : t = i
        · subst hit
          rw [List.getElem?_set_self ht] at hi
          simp at hi
        · rw [List.getElem?_set_ne hit] at hi
          have := h2 i (IncPhase.readDone s2) hi rfl
          rw [how] at this
          simp only [Option.some.injEq] at this
          exact absurd this hit
    · simpa [safeStep, hp, how] using ⟨h1, h2, h3⟩
  | finished => simpa [safeStep, hp] using ⟨h1, h2, h3⟩

theorem runSafe_inv (n : Nat) (sched : List Nat) : SafeInv (runSafe n sched) := by
  unfold runSafe
  have h0 : SafeInv (initSafe n) := by
    refine ⟨by simp [initSafe, countWrites, List.countP_replicate, isWritten], ?_, ?_⟩
    · intro i ph hi hcrit
      simp only [initSafe, List.getElem?_replicate] at hi
      rcases Nat.lt_or_ge i n with hin | hin
      · rw [if_pos hin] at hi
        simp only [Option.some.injEq] at hi
        rw [← hi] at hcrit
        simp [isCrit] at hcrit
      · rw [if_neg (by omega)] at hi
        simp at hi
    · intro i s hi
      simp only [initSafe, List.getElem?_replicate] at hi
      rcases Nat.lt_or_ge i n with hin | hin
      · rw [if_pos hin] at hi
        simp at hi
      · rw [if_neg (by omega)] at hi
        simp at hi
  generalize initSafe n = st at h0 ⊢
  induction sched generalizing st with
  | nil => simpa using h0
  | cons t rest ih =>
    simp only [List.foldl_cons]
    exact ih (safeStep st t) (safeStep_inv st t h0)

theorem safeStep_length (st : SafeRun) (t : Nat) :
    (safeStep st t).phases.length = st.phases.length := by
  rcases hp : st.phases[t]? with _ | ph
  · simp [safeStep, hp]
  cases ph with
  | start =>
    rcases how : st.owner with _ | u <;> simp [safeStep, hp, how]
  | locked => by_cases how : st.owner = some t <;> simp [safeStep, hp, how]
  | readDone s => by_cases how : st.owner = some t <;> simp [safeStep, hp, how]
  | written => by_cases how : st.owner = some t <;> simp [safeStep, hp, how]
  | finished => simp [safeStep, hp]

theorem runSafe_length (n : Nat) (sched : List Nat) :
    (runSafe n sched).phases.length = n := by
  unfold runSafe
  have h0 : (initSafe n).phases.length = n := by simp [initSafe]
  generalize initSafe n = st at h0 ⊢
  induction sched generalizing st with
  | nil => simpa using h0
  | cons t rest ih =>
    simp only [List.foldl_cons]
    exact ih (safeStep st t) (by rw [safeStep_length]; exact h0)

/-- The invariant of the unsafe run: the shared value and every pending
snapshot are bounded by the number of write-backs so far, and reads,
pending writes and write-backs account for all `n` increments. -/
def UnsafeInv (n : Nat) (st : UnsafeRun) : Prop :=
  st.value ≤ st.writes ∧ (∀ s ∈ st.pending, s ≤ st.writes) ∧
  st.writes + st.pending.length + st.remaining = n

theorem unsafeStep_inv (n : Nat) (st : UnsafeRun) (e : UnsafeEvent)
    (h : UnsafeInv n st) : UnsafeInv n (unsafeStep st e) := by
  obtain ⟨h1, h2, h3⟩ := h
  cases e with
  | read =>
    rcases hr : st.remaining with _ | r
    · simpa [unsafeStep, hr] using ⟨h1, h2, h3⟩
    · refine ⟨by simpa [unsafeStep, hr] using h1, ?_, ?_⟩
      · intro s hs
        simp only [unsafeStep, hr, List.mem_append, List.mem_singleton] at hs
        rcases hs with hs | hs
        · simpa [unsafeStep, hr] using h2 s hs
        · subst hs
          simpa [unsafeStep, hr] using h1
      · rw [hr] at h3
        simp only [unsafeStep, hr, List.length_append, List.length_singleton]
        omega
  | write k =>
    rcases hk : st.pending[k]? with _ | s
    · simpa [unsafeStep, hk] using ⟨h1, h2, h3⟩
    · have hklt : k < st.pending.length := (List.getElem?_eq_some_iff.1 hk).1
      have hsmem : s ∈ st.pending := by
        obtain ⟨hl, he⟩ := List.getElem?_eq_some_iff.1 hk
        rw [← he]
        exact List.getElem_mem hl
      refine ⟨?_, ?_, ?_⟩
      · have := h2 s hsmem
        simp only [unsafeStep, hk, Inc]
        omega
      · intro s2 hs2
        simp only [unsafeStep, hk] at hs2
        have : s2 ∈ st.pending := (List.eraseIdx_sublist st.pending k).mem hs2
        have := h2 s2 this
        simp only [unsafeStep, hk]
        omega
      · simp only [unsafeStep, hk, List.length_eraseIdx, if_pos hklt]
        omega

theorem runUnsafe_inv (n : Nat) (events : List UnsafeEvent) :
    UnsafeInv n (runUnsafe n events) := by
  unfold runUnsafe
  have h0 : UnsafeInv n (initUnsafe n) := by
    refine ⟨Nat.le_refl 0, ?_, by simp [initUnsafe]⟩
    intro s hs
    simp [initUnsafe] at hs
  generalize initUnsafe n = st at h0 ⊢
  induction events generalizing st with
  | nil => simpa using h0
  | cons e rest ih =>
    simp only [List.foldl_cons]
    exact ih (unsafeStep st e) (unsafeStep_inv n st e h0)

/-- C7: Running 100 concurrent `SafeCounter` increments on the same key
under any schedule that lets every task finish always yields a final
count of exactly 100 — the lock-protected read-modify-write is atomic
with respect to other tasks — while the same 100 increments through the
unsafe unlocked path yield, under every interleaving of their reads and
write-backs, some value that is at most 100. -/
theorem safe_increments_exactly_100_unsafe_at_most_100 (sched : List Nat)
    (events : List UnsafeEvent)
    (hdone : ∀ ph ∈ (runSafe 100 sched).phases, ph = IncPhase.finished) :
    (runSafe 100 sched).value = 100 ∧ (runUnsafe 100 events).value ≤ 100 := by
  constructor
  · have hinv := (runSafe_inv 100 sched).1
    have hlen := runSafe_length 100 sched
    have hall : countWrites (runSafe 100 sched).phases =
        (runSafe 100 sched).phases.length := by
      rw [countWrites, List.countP_eq_length]
      intro ph hph
      rw [hdone ph hph]
      rfl
    rw [hinv, hall, hlen]
  · have hinv := runUnsafe_inv 100 events
    obtain ⟨h1, _, h3⟩ := hinv
    omega

theorem safeStep_block (st : SafeRun) (i : Nat) (how : st.owner = none)
    (hp : st.phases[i]? = some IncPhase.start) :
    List.foldl safeStep st [i, i, i, i] =
      { owner := none, value := Inc st.value,
        phases := st.phases.set i IncPhase.finished } := by
  have ht : i < st.phases.length := (List.getElem?_eq_some_iff.1 hp).1
  have h1 : safeStep st i =
      { owner := some i, value := st.value,
        phases := st.phases.set i IncPhase.locked } := by
    simp [safeStep, hp, how]
  have h2 : safeStep
      { owner := some i, value := st.value,
        phases := st.phases.set i IncPhase.locked } i =
      { owner := some i, value := st.value,
        phases := st.phases.set i (IncPhase.readDone st.value) } := by
    simp [safeStep, List.getElem?_set_self ht, List.set_set]
  have h3 : safeStep
      { owner := some i, value := st.value,
        phases := st.phases.set i (IncPhase.readDone st.value) } i =
      { owner := some i, value := Inc st.value,
        phases := st.phases.set i IncPhase.written } := by
    simp [safeStep, List.getElem?_set_self ht, List.set_set]
  have h4 : safeStep
      { owner := some i, value := Inc st.value,
        phases := st.phases.set i IncPhase.written } i =
      { owner := none, value := Inc st.value,
        phases := st.phases.set i IncPhase.finished } := by
    simp [safeStep, List.getElem?_set_self ht, List.set_set]
  simp only [List.foldl_cons, List.foldl_nil, h1, h2, h3, h4]

theorem seq_partial (n : Nat) :
    ∀ k, k ≤ n →
      (((List.range k).map fun i => [i, i, i, i]).flatten).foldl safeStep (initSafe n) =
        { owner := none, value := k,
          phases := List.replicate k IncPhase.finished ++
            List.replicate (n - k) IncPhase.start } := by
  intro k
  induction k with
  | zero => intro _; simp [initSafe]
  | succ k ih =>
    intro hk
    rw [List.range_succ, List.map_append, List.flatten_append, List.foldl_append]
    rw [ih (by omega)]
    simp only [List.map_cons, List.map_nil, List.flatten_cons, List.flatten_nil,
      List.append_nil]
    have hp : (List.replicate k IncPhase.finished ++
        List.replicate (n - k) IncPhase.start)[k]? = some IncPhase.start := by
      rw [List.getElem?_append_right (by simp)]
      simp only [List.length_replicate, Nat.sub_self, List.getElem?_replicate]
      rw [if_pos (by omega)]
    rw [safeStep_block
      { owner := none, value := k,
        phases := List.replicate k IncPhase.finished ++
          List.replicate (n - k) IncPhase.start }
      k rfl hp]
    have hphases : (List.replicate k IncPhase.finished ++
        List.replicate (n - k) IncPhase.start).set k IncPhase.finished =
        List.replicate (k + 1) IncPhase.finished ++
          List.replicate (n - (k + 1)) IncPhase.start := by
      rw [List.set_append_right _ _ (by simp)]
      simp only [List.length_replicate, Nat.sub_self]
      rw [show n - k = (n - (k + 1)) + 1 by omega, List.replicate_succ,
        List.set_cons_zero, List.replicate_succ']
      simp
    rw [hphases]
    rfl

theorem runSafe_seq (n : Nat) :
    runSafe n (seqSched n) =
      { owner := none, value := n,
        phases := List.replicate n IncPhase.finished } := by
  unfold runSafe seqSched
  have h := seq_partial n n (Nat.le_refl n)
  simpa using h

/-- Witness for C7: under the sequential schedule all 100 safe tasks
finish and the counter is exactly 100; one lost-update interleaving of
the unsafe path stays at most 100. -/
theorem safe_increments_exactly_100_unsafe_at_most_100_witness :
    (∀ ph ∈ (runSafe 100 (seqSched 100)).phases, ph = IncPhase.finished) ∧
    (runSafe 100 (seqSched 100)).value = 100 ∧
    (runUnsafe 100 [UnsafeEvent.read, UnsafeEvent.read,
      UnsafeEvent.write 1, UnsafeEvent.write 0]).value ≤ 100 :=
  ⟨by rw [runSafe_seq]; exact fun ph hph => List.eq_of_mem_replicate hph,
    safe_increments_exactly_100_unsafe_at_most_100 (seqSched 100)
      [UnsafeEvent.read, UnsafeEvent.read, UnsafeEvent.write 1, UnsafeEvent.write 0]
      (by rw [runSafe_seq]; exact fun ph hph => List.eq_of_mem_replicate hph)⟩

/-- Embedded from src/concurrency/concurrency.go `sum`: add up the
elements of the slice (the total is then sent on the channel). -/
def sum (s : List Int) : Int := s.foldl (fun acc v => acc + v) 0

/-- The slice `s := []int{7, 2, -5, 4, 1}` of `channelExample`. -/
def channelExampleSlice : List Int := [7, 2, -5, 4, 1]

/-- Embedded from src/concurrency/concurrency.go `channelExample`: two
goroutines compute `sum(s[:len(s)/2])` and `sum(s[len(s)/2:])` and send
them on one channel; the main goroutine receives twice and adds.  Which
partial sum arrives first is not guaranteed; the parameter picks the
delivery order. -/
def channelExample (firstHalfFirst : Bool) : Int :=
  let s := channelExampleSlice
  let halfSum1 := sum (s.take (s.length / 2))
  let halfSum2 := sum (s.drop (s.length / 2))
  if firstHalfFirst then halfSum1 + halfSum2 else halfSum2 + halfSum1

theorem sum_eq_listSum (s : List Int) : sum s = s.sum := by
  rw [List.sum_eq_foldl, sum]

/-- C10: In `channelExample` the final total is independent of which
goroutine's partial sum is received first: for every list and split
point, the sum of the prefix plus the sum of the suffix equals the sum
of the whole list, and the addition of the two received values commutes,
so for `s = [7, 2, -5, 4, 1]` the computed result is 9 under both
delivery orders. -/
theorem channelExample_order_independent :
    (∀ (s : List Int) (k : Nat), sum (s.take k) + sum (s.drop k) = sum s) ∧
    (∀ firstHalfFirst : Bool, channelExample firstHalfFirst = 9) := by
  constructor
  · intro s k
    rw [sum_eq_listSum, sum_eq_listSum, sum_eq_listSum, ← List.sum_append,
      List.take_append_drop]
  · intro o
    cases o <;> rfl

end GoNotes
